import Mathlib

/-!
Verification of the webradio real-time audio pipeline core.

This file gives a shallow embedding of the pipeline's data structures and
operations, translated from the C++ sources:

* `ByteRingbuffer` (src/byte_ringbuffer.hpp) — the lock-free transport ring.
  `size_t` cursors are modelled as natural numbers with explicit `% 2 ^ 64`
  arithmetic; the byte storage is a function `Nat → Nat` over indices
  `[0, BUFFER_SIZE)`.
* the output-device data callback (src/webradio.cpp, `data_callback`).
* the prebuffering phase of `AudioPlayer::play_stream` (src/webradio.cpp).
* `FFTSpectrum::SampleBuffer` and `FFTSpectrum::process_samples`
  (src/fft_spectrum.cpp); `float` samples are modelled as rationals.
* the per-bar autogain and smoothing arithmetic of
  `FFTSpectrum::update_spectrum` (src/fft_spectrum.cpp); `float`
  arithmetic is modelled as exact rational arithmetic, and the
  transcendental `std::pow(·, 0.7f)` is kept as an abstract function
  parameter.

Atomic memory orderings of the C++ sources are not modelled: every
operation is embedded as a sequential state transformer, which is the
sequential semantics each single operation has in isolation.
-/

namespace Webradio

/-- Modulus of 64-bit `size_t` arithmetic: `2 ^ 64`.  The ring cursors
`head_` and `tail_` are free-running `size_t` counters, so all cursor
arithmetic in `byte_ringbuffer.hpp` is modulo this constant. -/
def W64 : Nat := 18446744073709551616

theorem W64_eq_pow : W64 = 2 ^ 64 := by norm_num [W64]

/-- Unsigned 64-bit subtraction `a - b`, i.e. `(a - b) mod 2 ^ 64` with
wraparound, as performed on `size_t` values in `byte_ringbuffer.hpp`.
It is written by cases so that symbolic reduction stays shallow;
`sub64_def_mod` below proves it equal to the usual modular form
`(a + (2 ^ 64 - b % 2 ^ 64)) % 2 ^ 64`. -/
def sub64 (a b : Nat) : Nat :=
  if b % W64 ≤ a % W64 then a % W64 - b % W64 else a % W64 + (W64 - b % W64)

theorem sub64_def_mod (a b : Nat) : sub64 a b = (a + (W64 - b % W64)) % W64 := by
  simp only [sub64, W64]; split <;> omega

/-- `ByteRingbuffer::BUFFER_SIZE = 262144` (256 KiB, a power of two). -/
def BUFFER_SIZE : Nat := 262144

/-- `ByteRingbuffer::BUFFER_MASK = BUFFER_SIZE - 1`.  Since `BUFFER_SIZE`
is `2 ^ 18`, masking with it (`head & BUFFER_MASK` in the source) equals
reduction `% BUFFER_SIZE`; the embedding uses `% BUFFER_SIZE` throughout. -/
def BUFFER_MASK : Nat := BUFFER_SIZE - 1

theorem land_mask_eq_mod (x : Nat) : x &&& BUFFER_MASK = x % BUFFER_SIZE := by
  have h : BUFFER_MASK = 2 ^ 18 - 1 := by norm_num [BUFFER_MASK, BUFFER_SIZE]
  have h2 : BUFFER_SIZE = 2 ^ 18 := by norm_num [BUFFER_SIZE]
  rw [h, h2, Nat.and_pow_two_sub_one_eq_mod]

/-- State of a `ByteRingbuffer` (src/byte_ringbuffer.hpp): the two
`size_t` cursors and the backing byte array, modelled as a function on
indices `[0, BUFFER_SIZE)`. -/
structure ByteRingbuffer where
  head : Nat
  tail : Nat
  buffer : Nat → Nat

namespace ByteRingbuffer

/-- The private static `readAvailable(head, tail) = head - tail`
(unsigned 64-bit subtraction). -/
def readAvail (head tail : Nat) : Nat := sub64 head tail

/-- The private static
`writeAvailable(head, tail) = BUFFER_SIZE - (head - tail) - 1`
computed in `size_t` arithmetic (the `-1` distinguishes full from empty). -/
def writeAvail (head tail : Nat) : Nat :=
  sub64 (sub64 BUFFER_SIZE (readAvail head tail)) 1

/-- Public `readAvailable()`: occupancy query on the current cursors. -/
def readAvailable (r : ByteRingbuffer) : Nat := readAvail r.head r.tail

/-- Public `writeAvailable()`: free-space query on the current cursors. -/
def writeAvailable (r : ByteRingbuffer) : Nat := writeAvail r.head r.tail

/-- `ByteRingbuffer::write(src, len)`: translation of
src/byte_ringbuffer.hpp lines 25–47.  Computes the free space, returns 0
when the buffer is full, otherwise copies `to_write = min len available`
bytes in two parts (`first_part` up to the end of the backing array, the
rest from index 0) and advances `head` by `to_write` (mod `2 ^ 64`).
Returns the byte count and the new state.  `len` is `src.length`. -/
def write (r : ByteRingbuffer) (src : List Nat) : Nat × ByteRingbuffer :=
  let head := r.head
  let tail := r.tail
  let available := writeAvail head tail
  if available = 0 then (0, r)
  else
    let to_write := min src.length available
    let hm := head % BUFFER_SIZE
    let first_part := min to_write (BUFFER_SIZE - hm)
    let buf1 : Nat → Nat := fun i =>
      if hm ≤ i ∧ i < hm + first_part then src.getD (i - hm) 0 else r.buffer i
    let buf2 : Nat → Nat := fun i =>
      if i < to_write - first_part then src.getD (first_part + i) 0 else buf1 i
    (to_write, ⟨(head + to_write) % W64, tail, buf2⟩)

/-- `ByteRingbuffer::read(dst, len)`: translation of
src/byte_ringbuffer.hpp lines 50–71.  Returns the empty list when the
buffer is empty, otherwise reads `to_read = min len available` bytes in
two parts (`first_part` up to the end of the backing array, the rest
from index 0) and advances `tail` by `to_read` (mod `2 ^ 64`). -/
def read (r : ByteRingbuffer) (len : Nat) : List Nat × ByteRingbuffer :=
  let tail := r.tail
  let head := r.head
  let available := readAvail head tail
  if available = 0 then ([], r)
  else
    let to_read := min len available
    let tm := tail % BUFFER_SIZE
    let first_part := min to_read (BUFFER_SIZE - tm)
    let dst := (List.range to_read).map fun j =>
      if j < first_part then r.buffer (tm + j) else r.buffer (j - first_part)
    (dst, ⟨head, (tail + to_read) % W64, r.buffer⟩)

/-- `ByteRingbuffer::consumerClear()`: `tail_.store(head_)` — collapses
the consumer cursor onto the producer cursor (src/byte_ringbuffer.hpp
lines 88–92). -/
def consumerClear (r : ByteRingbuffer) : ByteRingbuffer :=
  ⟨r.head, r.head, r.buffer⟩

/-- `ByteRingbuffer::producerClear()`: `head_.store(tail_)` — collapses
the producer cursor onto the consumer cursor (src/byte_ringbuffer.hpp
lines 95–99). -/
def producerClear (r : ByteRingbuffer) : ByteRingbuffer :=
  ⟨r.tail, r.tail, r.buffer⟩

end ByteRingbuffer

/-- Initial `ByteRingbuffer` state: both cursors 0, storage zero-filled
(constructor, src/byte_ringbuffer.hpp lines 15–18). -/
def initRing : ByteRingbuffer := ⟨0, 0, fun _ => 0⟩

/-- One operation of the `ByteRingbuffer` interface, for reasoning about
arbitrary operation sequences. -/
inductive RingOp where
  | write (src : List Nat) : RingOp
  | read (len : Nat) : RingOp
  | consumerClear : RingOp
  | producerClear : RingOp

/-- Apply one `RingOp` to a ring state (discarding the returned count or
bytes). -/
def applyOp (r : ByteRingbuffer) : RingOp → ByteRingbuffer
  | RingOp.write src => (r.write src).2
  | RingOp.read len => (r.read len).2
  | RingOp.consumerClear => r.consumerClear
  | RingOp.producerClear => r.producerClear

/-- Ring state after running a sequence of operations from the initial
state. -/
def runOps (ops : List RingOp) : ByteRingbuffer := ops.foldl applyOp initRing

/-- State invariant of the ring: cursors are `size_t` values and the
unsigned cursor difference is below the capacity. -/
def RingInv (r : ByteRingbuffer) : Prop :=
  r.head < W64 ∧ r.tail < W64 ∧ sub64 r.head r.tail < BUFFER_SIZE

instance (r : ByteRingbuffer) : Decidable (RingInv r) := by
  unfold RingInv; infer_instance

theorem sub64_lt_W64 (a b : Nat) : sub64 a b < W64 := by
  simp only [sub64_def_mod, W64]; omega

theorem sub64_self (a : Nat) : sub64 a a = 0 := by
  simp only [sub64_def_mod, W64]; omega

theorem sub64_add (a b k : Nat) (hk : sub64 a b + k < W64) :
    sub64 ((a + k) % W64) b = sub64 a b + k := by
  simp only [sub64_def_mod, W64] at *; omega

theorem sub64_sub (a b k : Nat) (hk : k ≤ sub64 a b) :
    sub64 a ((b + k) % W64) = sub64 a b - k := by
  simp only [sub64_def_mod, W64] at *; omega

theorem sub64_eq_zero_iff (a b : Nat) (ha : a < W64) (hb : b < W64) :
    sub64 a b = 0 ↔ a = b := by
  simp only [sub64_def_mod, W64] at *; omega

theorem writeAvail_eq (h t : Nat) (hd : sub64 h t < BUFFER_SIZE) :
    ByteRingbuffer.writeAvail h t = BUFFER_SIZE - 1 - sub64 h t := by
  simp only [ByteRingbuffer.writeAvail, ByteRingbuffer.readAvail] at *
  simp only [sub64_def_mod, W64, BUFFER_SIZE] at *
  omega

theorem ringInv_write (r : ByteRingbuffer) (src : List Nat)
    (h : RingInv r) : RingInv (r.write src).2 := by
  obtain ⟨h1, h2, h3⟩ := h
  by_cases h0 : ByteRingbuffer.writeAvail r.head r.tail = 0
  · simpa [ByteRingbuffer.write, h0, RingInv] using ⟨h1, h2, h3⟩
  · have hav := writeAvail_eq r.head r.tail h3
    simp only [ByteRingbuffer.write, if_neg h0]
    have htw : min src.length (ByteRingbuffer.writeAvail r.head r.tail) ≤
        BUFFER_SIZE - 1 - sub64 r.head r.tail := by
      rw [← hav]; exact min_le_right _ _
    refine ⟨Nat.mod_lt _ (by norm_num [W64]), h2, ?_⟩
    rw [sub64_add]
    · simp only [BUFFER_SIZE] at *; omega
    · simp only [BUFFER_SIZE, W64] at *
      have := sub64_lt_W64 r.head r.tail
      simp only [W64] at this
      omega

theorem ringInv_read (r : ByteRingbuffer) (len : Nat)
    (h : RingInv r) : RingInv (r.read len).2 := by
  obtain ⟨h1, h2, h3⟩ := h
  by_cases h0 : ByteRingbuffer.readAvail r.head r.tail = 0
  · simpa [ByteRingbuffer.read, h0, RingInv] using ⟨h1, h2, h3⟩
  · simp only [ByteRingbuffer.read, if_neg h0]
    have htr : min len (ByteRingbuffer.readAvail r.head r.tail) ≤
        sub64 r.head r.tail := min_le_right _ _
    refine ⟨h1, Nat.mod_lt _ (by norm_num [W64]), ?_⟩
    rw [sub64_sub r.head r.tail _ htr]
    omega

theorem ringInv_consumerClear (r : ByteRingbuffer) (h : RingInv r) :
    RingInv r.consumerClear := by
  obtain ⟨h1, _, _⟩ := h
  refine ⟨h1, h1, ?_⟩
  show sub64 r.head r.head < BUFFER_SIZE
  rw [sub64_self r.head]; norm_num [BUFFER_SIZE]

theorem ringInv_producerClear (r : ByteRingbuffer) (h : RingInv r) :
    RingInv r.producerClear := by
  obtain ⟨_, h2, _⟩ := h
  refine ⟨h2, h2, ?_⟩
  show sub64 r.tail r.tail < BUFFER_SIZE
  rw [sub64_self r.tail]; norm_num [BUFFER_SIZE]

theorem ringInv_applyOp (r : ByteRingbuffer) (op : RingOp)
    (h : RingInv r) : RingInv (applyOp r op) := by
  cases op with
  | write src => exact ringInv_write r src h
  | read len => exact ringInv_read r len h
  | consumerClear => exact ringInv_consumerClear r h
  | producerClear => exact ringInv_producerClear r h

theorem ringInv_foldl (ops : List RingOp) (r : ByteRingbuffer)
    (h : RingInv r) : RingInv (ops.foldl applyOp r) := by
  induction ops generalizing r with
  | nil => exact h
  | cons op rest ih => exact ih _ (ringInv_applyOp r op h)

theorem ringInv_initRing : RingInv initRing := by
  refine ⟨by norm_num [initRing, W64], by norm_num [initRing, W64], ?_⟩
  show sub64 0 0 < BUFFER_SIZE
  rw [sub64_self 0]
  norm_num [BUFFER_SIZE]

theorem ringInv_runOps (ops : List RingOp) : RingInv (runOps ops) :=
  ringInv_foldl ops initRing ringInv_initRing

theorem write_fst (r : ByteRingbuffer) (src : List Nat) :
    (r.write src).1 = min src.length (ByteRingbuffer.writeAvail r.head r.tail) := by
  by_cases h0 : ByteRingbuffer.writeAvail r.head r.tail = 0
  · simp [ByteRingbuffer.write, h0]
  · simp [ByteRingbuffer.write, h0]

theorem write_head (r : ByteRingbuffer) (src : List Nat) (hInv : RingInv r) :
    (r.write src).2.head =
      (r.head + min src.length (ByteRingbuffer.writeAvail r.head r.tail)) % W64 := by
  by_cases h0 : ByteRingbuffer.writeAvail r.head r.tail = 0
  · simp [ByteRingbuffer.write, h0, Nat.mod_eq_of_lt hInv.1]
  · simp [ByteRingbuffer.write, h0]

theorem write_tail (r : ByteRingbuffer) (src : List Nat) :
    (r.write src).2.tail = r.tail := by
  by_cases h0 : ByteRingbuffer.writeAvail r.head r.tail = 0
  · simp [ByteRingbuffer.write, h0]
  · simp [ByteRingbuffer.write, h0]

theorem write_buffer_spec (r : ByteRingbuffer) (src : List Nat)
    (hInv : RingInv r) :
    ∀ j, j < (r.write src).1 →
      (r.write src).2.buffer ((r.head + j) % BUFFER_SIZE) = src.getD j 0 := by
  intro j hj
  rw [write_fst] at hj
  by_cases h0 : ByteRingbuffer.writeAvail r.head r.tail = 0
  · rw [h0] at hj; simp at hj
  · have hav := writeAvail_eq r.head r.tail hInv.2.2
    have hd := hInv.2.2
    simp only [ByteRingbuffer.write, if_neg h0]
    simp only [BUFFER_SIZE] at hav hd hj ⊢
    split_ifs with h1 h2
    · congr 1
      omega
    · congr 1
      omega
    · exfalso
      omega

theorem read_fst_length (r : ByteRingbuffer) (len : Nat) :
    (r.read len).1.length = min len (ByteRingbuffer.readAvail r.head r.tail) := by
  by_cases h0 : ByteRingbuffer.readAvail r.head r.tail = 0
  · simp [ByteRingbuffer.read, h0]
  · simp [ByteRingbuffer.read, h0]

theorem read_head (r : ByteRingbuffer) (len : Nat) :
    (r.read len).2.head = r.head := by
  by_cases h0 : ByteRingbuffer.readAvail r.head r.tail = 0
  · simp [ByteRingbuffer.read, h0]
  · simp [ByteRingbuffer.read, h0]

theorem read_tail (r : ByteRingbuffer) (len : Nat) (hInv : RingInv r) :
    (r.read len).2.tail =
      (r.tail + min len (ByteRingbuffer.readAvail r.head r.tail)) % W64 := by
  by_cases h0 : ByteRingbuffer.readAvail r.head r.tail = 0
  · simp [ByteRingbuffer.read, h0, Nat.mod_eq_of_lt hInv.2.1]
  · simp [ByteRingbuffer.read, h0]

theorem read_buffer_unchanged (r : ByteRingbuffer) (len : Nat) :
    (r.read len).2.buffer = r.buffer := by
  by_cases h0 : ByteRingbuffer.readAvail r.head r.tail = 0
  · simp [ByteRingbuffer.read, h0]
  · simp [ByteRingbuffer.read, h0]

theorem read_getD (r : ByteRingbuffer) (len : Nat) (hInv : RingInv r) :
    ∀ j, j < min len (ByteRingbuffer.readAvail r.head r.tail) →
      (r.read len).1.getD j 0 = r.buffer ((r.tail + j) % BUFFER_SIZE) := by
  intro j hj
  have h0 : ByteRingbuffer.readAvail r.head r.tail ≠ 0 := by
    intro h; rw [h] at hj; simp at hj
  have hd := hInv.2.2
  simp only [ByteRingbuffer.read, if_neg h0]
  have hget : ∀ (f : Nat → Nat) (n : Nat), j < n →
      ((List.range n).map f).getD j 0 = f j := by
    intro f n hn
    rw [List.getD_eq_getElem?_getD, List.getElem?_map, List.getElem?_range hn]
    rfl
  rw [hget _ _ (by exact hj)]
  simp only [ByteRingbuffer.readAvail] at hj ⊢
  simp only [BUFFER_SIZE] at hd hj ⊢
  split_ifs with h1
  · congr 1
    omega
  · congr 1
    rcases min_cases (min len (sub64 r.head r.tail))
        (262144 - r.tail % 262144) with h5 | h5 <;>
      rw [h5.1, Nat.sub_eq_iff_eq_add (by omega)] <;> omega

theorem write_buffer_frame (r : ByteRingbuffer) (src : List Nat)
    (hInv : RingInv r) :
    ∀ i, i < BUFFER_SIZE →
      (∀ j, j < (r.write src).1 → i ≠ (r.head + j) % BUFFER_SIZE) →
      (r.write src).2.buffer i = r.buffer i := by
  intro i hi hout
  rw [write_fst] at hout
  by_cases h0 : ByteRingbuffer.writeAvail r.head r.tail = 0
  · simp [ByteRingbuffer.write, h0]
  · have hav := writeAvail_eq r.head r.tail hInv.2.2
    have hd := hInv.2.2
    simp only [ByteRingbuffer.write, if_neg h0]
    simp only [BUFFER_SIZE] at hav hd hi hout ⊢
    split_ifs with h1 h2
    · exact absurd (by omega)
        (hout (min src.length (ByteRingbuffer.writeAvail r.head r.tail) ⊓
          (262144 - r.head % 262144) + i) (by omega))
    · exact absurd (by omega) (hout (i - r.head % 262144) (by omega))
    · rfl

theorem list_eq_of_getD (xs ys : List Nat) (hlen : xs.length = ys.length)
    (h : ∀ j, j < xs.length → xs.getD j 0 = ys.getD j 0) : xs = ys := by
  apply List.ext_getElem hlen
  intro j h1 h2
  have hj := h j h1
  rwa [List.getD_eq_getElem?_getD, List.getElem?_eq_getElem h1,
    List.getD_eq_getElem?_getD, List.getElem?_eq_getElem h2,
    Option.getD_some, Option.getD_some] at hj

/-- C1: for every sequence of `write`, `read`, `consumerClear` and
`producerClear` operations on the transport ring, the unsigned cursor
difference `head - tail` stays in `[0, BUFFER_SIZE)`, and
`readAvailable() + writeAvailable() = BUFFER_SIZE - 1` afterwards. -/
theorem c1_cursor_invariant (ops : List RingOp) :
    sub64 (runOps ops).head (runOps ops).tail < BUFFER_SIZE ∧
    (runOps ops).readAvailable + (runOps ops).writeAvailable =
      BUFFER_SIZE - 1 := by
  have h := ringInv_runOps ops
  obtain ⟨h1, h2, h3⟩ := h
  refine ⟨h3, ?_⟩
  have hav := writeAvail_eq (runOps ops).head (runOps ops).tail h3
  simp only [ByteRingbuffer.readAvailable, ByteRingbuffer.writeAvailable,
    ByteRingbuffer.readAvail, hav]
  simp only [BUFFER_SIZE] at *
  omega

theorem readAvail_after_write (r : ByteRingbuffer) (src : List Nat)
    (hInv : RingInv r) :
    ByteRingbuffer.readAvail (r.write src).2.head (r.write src).2.tail =
      sub64 r.head r.tail + (r.write src).1 := by
  have hav := writeAvail_eq r.head r.tail hInv.2.2
  rw [ByteRingbuffer.readAvail, write_head r src hInv, write_tail, write_fst]
  apply sub64_add
  have h1 : min src.length (ByteRingbuffer.writeAvail r.head r.tail) ≤
      BUFFER_SIZE - 1 - sub64 r.head r.tail := by
    rw [← hav]; exact min_le_right _ _
  have h2 := hInv.2.2
  simp only [BUFFER_SIZE, W64] at *
  omega

/-- C2 counterexample state: a ring that already holds one unread byte of
value 99 (reachable from the initial state by `write [99]`). -/
def c2CounterRing : ByteRingbuffer := ⟨1, 0, fun _ => 99⟩

/-- C2 counterexample: on a ring state that is not empty, writing a byte
sequence shorter than the free space and reading back the same count does
NOT return the written sequence — `read` consumes the oldest bytes first,
so the pre-existing byte 99 comes back instead of the freshly written 5.
This refutes the claim as stated, i.e. quantified over every ring state. -/
theorem c2_counterexample :
    RingInv c2CounterRing ∧
    ([5] : List Nat).length < c2CounterRing.writeAvailable ∧
    ((c2CounterRing.write [5]).2.read ([5] : List Nat).length).1 = [99] ∧
    ((99 : Nat) :: []) ≠ [5] := by decide

/-- C2 (amended): for every ring state that is empty
(`readAvailable() = 0`), writing a byte sequence of length `n` smaller
than the current free space and then reading `n` bytes returns exactly
the same byte sequence, including when the copy wraps past the end of
the backing array. -/
theorem c2_write_read_roundtrip (r : ByteRingbuffer) (hInv : RingInv r)
    (hEmpty : r.readAvailable = 0) (src : List Nat)
    (hLen : src.length < r.writeAvailable) :
    ((r.write src).2.read src.length).1 = src := by
  obtain ⟨hh, ht, hd⟩ := hInv
  have hd0 : sub64 r.head r.tail = 0 := hEmpty
  have het : r.head = r.tail := (sub64_eq_zero_iff r.head r.tail hh ht).1 hd0
  have hav := writeAvail_eq r.head r.tail hd
  have hlen2 : src.length < BUFFER_SIZE - 1 := by
    have h3 : r.writeAvailable = BUFFER_SIZE - 1 - sub64 r.head r.tail := hav
    omega
  have hInv2 : RingInv (r.write src).2 := ringInv_write r src ⟨hh, ht, hd⟩
  have htw : (r.write src).1 = src.length := by
    rw [write_fst]
    have h3 : ByteRingbuffer.writeAvail r.head r.tail =
        BUFFER_SIZE - 1 - sub64 r.head r.tail := hav
    simp only [BUFFER_SIZE] at *
    omega
  have hrav : ByteRingbuffer.readAvail (r.write src).2.head
      (r.write src).2.tail = src.length := by
    rw [readAvail_after_write r src ⟨hh, ht, hd⟩, hd0, htw]
    omega
  apply list_eq_of_getD
  · rw [read_fst_length, hrav]
    omega
  · intro j hj
    rw [read_fst_length, hrav] at hj
    have hj2 : j < src.length := by omega
    rw [read_getD (r.write src).2 src.length hInv2 j (by rw [hrav]; omega)]
    rw [write_tail, ← het]
    exact write_buffer_spec r src ⟨hh, ht, hd⟩ j (by omega)

/-- C2 witness ring: empty, with both cursors near the end of the backing
array so that an 8-byte write wraps around. -/
def c2WitnessRing : ByteRingbuffer := ⟨262140, 262140, fun _ => 0⟩

theorem c2_roundtrip_witness :
    RingInv c2WitnessRing ∧ c2WitnessRing.readAvailable = 0 ∧
    ([1, 2, 3, 4, 5, 6, 7, 8] : List Nat).length < c2WitnessRing.writeAvailable ∧
    ((c2WitnessRing.write [1, 2, 3, 4, 5, 6, 7, 8]).2.read
      ([1, 2, 3, 4, 5, 6, 7, 8] : List Nat).length).1 = [1, 2, 3, 4, 5, 6, 7, 8] :=
  ⟨by decide, by decide, by decide,
    c2_write_read_roundtrip c2WitnessRing (by decide) (by decide)
      [1, 2, 3, 4, 5, 6, 7, 8] (by decide)⟩

/-- C3: `write` copies exactly `min(requested, free space)` bytes into the
ring (the two-part wrapping copy lands byte `j` at index
`(head + j) % BUFFER_SIZE` and touches nothing else), returns that count,
returns 0 when the buffer is full; `read` symmetrically consumes and
returns exactly `min(requested, available)` bytes (the oldest ones,
from `(tail + j) % BUFFER_SIZE`), returning none when empty.  Both are
total functions of the state — no blocking, no error result. -/
theorem c3_write_read_counts (r : ByteRingbuffer) (src : List Nat)
    (len : Nat) (hInv : RingInv r) :
    ((r.write src).1 = min src.length r.writeAvailable) ∧
    (r.writeAvailable = 0 → r.write src = (0, r)) ∧
    ((r.write src).2.head = (r.head + (r.write src).1) % W64) ∧
    ((r.write src).2.tail = r.tail) ∧
    (∀ j, j < (r.write src).1 →
      (r.write src).2.buffer ((r.head + j) % BUFFER_SIZE) = src.getD j 0) ∧
    (∀ i, i < BUFFER_SIZE →
      (∀ j, j < (r.write src).1 → i ≠ (r.head + j) % BUFFER_SIZE) →
      (r.write src).2.buffer i = r.buffer i) ∧
    ((r.read len).1.length = min len r.readAvailable) ∧
    (r.readAvailable = 0 → r.read len = ([], r)) ∧
    ((r.read len).2.head = r.head) ∧
    ((r.read len).2.tail = (r.tail + (r.read len).1.length) % W64) ∧
    ((r.read len).2.buffer = r.buffer) ∧
    (∀ j, j < (r.read len).1.length →
      (r.read len).1.getD j 0 = r.buffer ((r.tail + j) % BUFFER_SIZE)) := by
  refine ⟨write_fst r src, ?_, ?_, write_tail r src,
    write_buffer_spec r src hInv, write_buffer_frame r src hInv,
    read_fst_length r len, ?_, read_head r len, ?_,
    read_buffer_unchanged r len, ?_⟩
  · intro h
    have h2 : ByteRingbuffer.writeAvail r.head r.tail = 0 := h
    simp [ByteRingbuffer.write, h2]
  · rw [write_head r src hInv, write_fst]
  · intro h
    have h2 : ByteRingbuffer.readAvail r.head r.tail = 0 := h
    simp [ByteRingbuffer.read, h2]
  · rw [read_tail r len hInv, read_fst_length]
  · intro j hj
    rw [read_fst_length] at hj
    exact read_getD r len hInv j hj

/-- C3 witness ring: head 3, tail 1, two bytes buffered. -/
def c3WitnessRing : ByteRingbuffer := ⟨3, 1, fun i => i + 10⟩

theorem c3_write_read_counts_witness :
    (c3WitnessRing.write [7, 8]).1 =
      min ([7, 8] : List Nat).length c3WitnessRing.writeAvailable ∧
    (c3WitnessRing.read 5).1.length = min 5 c3WitnessRing.readAvailable :=
  ⟨(c3_write_read_counts c3WitnessRing [7, 8] 5 (by decide)).1,
    (c3_write_read_counts c3WitnessRing [7, 8] 5 (by decide)).2.2.2.2.2.2.1⟩

/-- `data_callback` (src/webradio.cpp lines 105–138), restricted to its
transport-ring traffic: with `bytesPerFrame = 4` (16-bit stereo), it
computes `bytesToWrite = frameCount * 4`, reads from the ring, and fills
the shortfall `bytesToWrite - bytesRead` with zero bytes (`memset`).
The subsequent in-place volume scaling (a float multiply applied only to
the first `bytesRead` bytes when the gain is below 0.99) and the handoff
of the same samples to the spectrum analyzer neither change the output
length nor touch the zero-filled suffix, and are not modelled. -/
def data_callback (r : ByteRingbuffer) (frameCount : Nat) :
    List Nat × ByteRingbuffer :=
  let bytesToWrite := frameCount * 4
  let res := r.read bytesToWrite
  (res.1 ++ List.replicate (bytesToWrite - res.1.length) 0, res.2)

/-- C4: on each output-device tick the callback asks the ring for exactly
the `frameCount * 4` bytes the requested frames need; the ring yields
`min(needed, available)` and the shortfall — the whole buffer, when the
ring is empty — is filled with zero bytes (silence).  The output always
has exactly the requested length, the consumed count is exactly what was
available up to the need, and no error is produced (the model is a total
function; the code neither blocks nor retries). -/
theorem c4_callback_silence_fill (r : ByteRingbuffer) (frameCount : Nat)
    (hInv : RingInv r) :
    ((data_callback r frameCount).1.length = frameCount * 4) ∧
    ((data_callback r frameCount).1 = (r.read (frameCount * 4)).1 ++
      List.replicate (frameCount * 4 - min (frameCount * 4) r.readAvailable) 0) ∧
    ((r.read (frameCount * 4)).1.length =
      min (frameCount * 4) r.readAvailable) ∧
    ((data_callback r frameCount).2.tail =
      (r.tail + min (frameCount * 4) r.readAvailable) % W64) ∧
    (r.readAvailable = 0 →
      (data_callback r frameCount).1 = List.replicate (frameCount * 4) 0) := by
  have hr := read_fst_length r (frameCount * 4)
  refine ⟨?_, ?_, hr, ?_, ?_⟩
  · simp only [data_callback, List.length_append, List.length_replicate, hr]
    omega
  · simp only [data_callback, ByteRingbuffer.readAvailable, hr]
  · simp only [data_callback]
    exact read_tail r (frameCount * 4) hInv
  · intro h
    have h3 : ByteRingbuffer.readAvail r.head r.tail = 0 := h
    have h2 : r.read (frameCount * 4) = ([], r) := by
      simp [ByteRingbuffer.read, h3]
    simp [data_callback, h2]

/-- C4 witness ring: two bytes available, so a one-frame tick (4 bytes)
has a 2-byte shortfall. -/
def c4WitnessRing : ByteRingbuffer := ⟨2, 0, fun _ => 7⟩

theorem c4_callback_silence_fill_witness :
    (data_callback c4WitnessRing 1).1.length = 1 * 4 ∧
    (data_callback c4WitnessRing 1).1 = (c4WitnessRing.read (1 * 4)).1 ++
      List.replicate (1 * 4 - min (1 * 4) c4WitnessRing.readAvailable) 0 :=
  ⟨(c4_callback_silence_fill c4WitnessRing 1 (by decide)).1,
    (c4_callback_silence_fill c4WitnessRing 1 (by decide)).2.1⟩

/-- End-of-session ring clear: when `AudioPlayer::play_stream` tears a
session down, src/webradio.cpp line 661 — reached after the output device
is stopped and released and the resampler, decoder and network input are
freed (lines 653–659) — executes `audio_buffer_.consumerClear()`. -/
def sessionEndClear (r : ByteRingbuffer) : ByteRingbuffer := r.consumerClear

/-- C6 counterexample ring: head 5, tail 3. -/
def c6CounterRing : ByteRingbuffer := ⟨5, 3, fun _ => 0⟩

/-- C6 counterexample: the end-of-session clear moves the consumer-owned
`tail` cursor up to `head` (a `consumerClear`), it does not collapse the
producer-owned `head` cursor onto `tail` as the claim states: `head`
stays 5 instead of dropping to the tail value 3, unlike
`producerClear`, whose result cursor value would be 3. -/
theorem c6_counterexample :
    (sessionEndClear c6CounterRing).head = 5 ∧
    c6CounterRing.tail = 3 ∧
    (sessionEndClear c6CounterRing).head ≠ c6CounterRing.tail ∧
    (sessionEndClear c6CounterRing).tail = c6CounterRing.head ∧
    (ByteRingbuffer.producerClear c6CounterRing).head = 3 := by decide

/-- C6 (amended): when a session ends, after the output device, resampler,
decoder and network input are released, the TransportRing is cleared from
the consumer side (`consumerClear`: the tail cursor is moved up to the
producer-owned head cursor, which stays put), which empties the ring
(`readAvailable() = 0`, `writeAvailable() = BUFFER_SIZE - 1`) so a
subsequent session starts from a clean state. -/
theorem c6_session_end_clear (r : ByteRingbuffer) :
    (sessionEndClear r).readAvailable = 0 ∧
    (sessionEndClear r).head = r.head ∧
    (sessionEndClear r).tail = r.head ∧
    (sessionEndClear r).writeAvailable = BUFFER_SIZE - 1 := by
  refine ⟨?_, rfl, rfl, ?_⟩
  · show sub64 r.head r.head = 0
    exact sub64_self r.head
  · show ByteRingbuffer.writeAvail r.head r.head = BUFFER_SIZE - 1
    have h0 : sub64 r.head r.head = 0 := sub64_self r.head
    have h1 : sub64 r.head r.head < BUFFER_SIZE := by
      rw [h0]; norm_num [BUFFER_SIZE]
    rw [writeAvail_eq r.head r.head h1, h0]
    exact Nat.sub_zero _

/-- `PREBUFFER_TARGET = 65536` bytes (src/webradio.cpp line 482). -/
def PREBUFFER_TARGET : Nat := 65536

/-- The prebuffering loop of `AudioPlayer::play_stream`
(src/webradio.cpp lines 484–532), abstracted over the packet stream.
`stops` gives the value of the `stop_requested_` flag as sampled at each
loop-condition check (`headD false`: no stop request ever arrives);
`packets` gives, for each successful `av_read_frame`, the number of bytes
of decoded and resampled audio that packet contributes to the transport
ring (0 for non-audio packets and failed decodes; the inner write loop of
lines 514–521 sleeps and retries until every decoded byte is written, so
a packet's whole contribution lands in the ring); an exhausted packet
list models `av_read_frame` returning an error (stream end).  `fill` is
the current `readAvailable()` — the output device is not running during
this phase, so nothing consumes from the ring and the fill only grows.
Returns the final fill, whether the loop was left because of a stop
request, and the unread packets. -/
def prebufferLoop (stops : List Bool) (packets : List Nat) (fill : Nat) :
    Nat × Bool × List Nat :=
  match packets with
  | [] =>
    if stops.headD false then (fill, true, [])
    else (fill, false, [])
  | p :: rest =>
    if stops.headD false then (fill, true, p :: rest)
    else if PREBUFFER_TARGET ≤ fill then (fill, false, p :: rest)
    else prebufferLoop stops.tail rest (fill + p)

/-- Outcome of the prebuffering phase. -/
structure PrebufferOutcome where
  fill : Nat
  stopped : Bool
  deviceStarted : Bool
  remaining : List Nat

/-- The prebuffering phase of `play_stream`: `consumerClear()` empties
the ring first (line 481), so the loop starts at fill 0; after the loop,
lines 534–553: when the stop flag is set the session returns without
starting the output device, otherwise `ma_device_start` is invoked. -/
def prebufferPhase (stops : List Bool) (packets : List Nat) :
    PrebufferOutcome :=
  let res := prebufferLoop stops packets 0
  ⟨res.1, res.2.1, !res.2.1, res.2.2⟩

theorem prebufferLoop_exit (packets : List Nat) (stops : List Bool)
    (fill : Nat) :
    (prebufferLoop stops packets fill).2.1 = false →
    PREBUFFER_TARGET ≤ (prebufferLoop stops packets fill).1 ∨
      (prebufferLoop stops packets fill).2.2 = [] := by
  induction packets generalizing stops fill with
  | nil =>
    intro h
    right
    simp only [prebufferLoop]
    split <;> rfl
  | cons p rest ih =>
    intro h
    simp only [prebufferLoop] at h ⊢
    by_cases hs : stops.headD false
    · rw [if_pos hs] at h
      simp at h
    · rw [if_neg hs] at h ⊢
      by_cases hf : PREBUFFER_TARGET ≤ fill
      · rw [if_pos hf] at h ⊢
        exact Or.inl hf
      · rw [if_neg hf] at h ⊢
        exact ih stops.tail (fill + p) h

theorem prebufferLoop_remaining (packets : List Nat) (stops : List Bool)
    (fill : Nat) :
    (prebufferLoop stops packets fill).2.2 ≠ [] →
    (prebufferLoop stops packets fill).2.1 = false →
    PREBUFFER_TARGET ≤ (prebufferLoop stops packets fill).1 := by
  induction packets generalizing stops fill with
  | nil =>
    intro h1 h2
    exfalso
    apply h1
    simp only [prebufferLoop]
    split <;> rfl
  | cons p rest ih =>
    intro h1 h2
    simp only [prebufferLoop] at h1 h2 ⊢
    by_cases hs : stops.headD false
    · rw [if_pos hs] at h2
      simp at h2
    · rw [if_neg hs] at h1 h2 ⊢
      by_cases hf : PREBUFFER_TARGET ≤ fill
      · rw [if_pos hf]
        exact hf
      · rw [if_neg hf] at h1 h2 ⊢
        exact ih stops.tail (fill + p) h1 h2

/-- C5 counterexample: a session whose stream ends during prebuffering
(`av_read_frame` fails at once: no packets) leaves the loop with
`stop_requested_` unset and the ring far below `PREBUFFER_TARGET`, yet
the code falls through to `ma_device_start` (line 544) — the output
device is started although the threshold was never reached, refuting
"started exactly once the ring holds the threshold, and never before". -/
theorem c5_counterexample :
    (prebufferPhase [] []).deviceStarted = true ∧
    (prebufferPhase [] []).fill = 0 ∧
    (prebufferPhase [] []).fill < PREBUFFER_TARGET := by decide

/-- C5 (amended): in every session that reaches playback, while
`readAvailable()` is below the prebuffer threshold the session keeps
decoding and writing without starting the output device, and the
prebuffer phase exits only on reaching the threshold, on a stop request,
or on stream end/error; the output device is then started exactly when
the phase exits without a stop request — on reaching the threshold, or
on stream end/error (in which case it may start below the threshold).
In particular, while the stream has not ended, the device is started
exactly once the threshold is reached. -/
theorem c5_prebuffer_device_start (stops : List Bool) (packets : List Nat) :
    ((prebufferPhase stops packets).deviceStarted =
      !(prebufferPhase stops packets).stopped) ∧
    ((prebufferPhase stops packets).stopped = false →
      PREBUFFER_TARGET ≤ (prebufferPhase stops packets).fill ∨
        (prebufferPhase stops packets).remaining = []) ∧
    ((prebufferPhase stops packets).remaining ≠ [] →
      (prebufferPhase stops packets).stopped = false →
      PREBUFFER_TARGET ≤ (prebufferPhase stops packets).fill) ∧
    (∀ stops2 : List Bool, ∀ p : Nat, ∀ rest : List Nat, ∀ fill : Nat,
      stops2.headD false = false → fill < PREBUFFER_TARGET →
      prebufferLoop stops2 (p :: rest) fill =
        prebufferLoop stops2.tail rest (fill + p)) := by
  refine ⟨rfl, ?_, ?_, ?_⟩
  · exact prebufferLoop_exit packets stops 0
  · exact prebufferLoop_remaining packets stops 0
  · intro stops2 p rest fill hs hf
    simp only [prebufferLoop]
    rw [if_neg (by cases stops2 <;> simp_all), if_neg (by omega)]

theorem c5_prebuffer_device_start_witness :
    PREBUFFER_TARGET ≤ (prebufferPhase [] [70000]).fill ∨
      (prebufferPhase [] [70000]).remaining = [] :=
  (c5_prebuffer_device_start [] [70000]).2.1 (by decide)

/-- `FFTSpectrum::FFT_SIZE = 2048` (src/fft_spectrum.hpp line 17). -/
def FFT_SIZE : Nat := 2048

/-- `FFTSpectrum::UPDATE_INTERVAL_MS = 33` (~30 FPS,
src/fft_spectrum.hpp line 19). -/
def UPDATE_INTERVAL_MS : Nat := 33

/-- `FFTSpectrum::SampleBuffer` (src/fft_spectrum.hpp lines 42–51): ring
of mono samples feeding the transform.  The `float` samples are modelled
as rationals; `samples` is the backing array over indices `[0, SIZE)`,
with the write and read cursors. -/
structure SampleBuffer where
  samples : Nat → ℚ
  write_pos : Nat
  read_pos : Nat

namespace SampleBuffer

/-- `SampleBuffer::SIZE = FFT_SIZE * 4` (4× the window for overlap). -/
def SIZE : Nat := FFT_SIZE * 4

/-- `SampleBuffer::available()` (src/fft_spectrum.cpp lines 37–46). -/
def available (sb : SampleBuffer) : Nat :=
  if sb.read_pos ≤ sb.write_pos then sb.write_pos - sb.read_pos
  else SIZE - sb.read_pos + sb.write_pos

end SampleBuffer

/-- The copy loop of `read_block` (src/fft_spectrum.cpp lines 55–58):
`out[i] = samples[read]; read = (read + 1) % SIZE` repeated.  Returns the
copied values and the final read position. -/
def readLoop (samples : Nat → ℚ) (read : Nat) : Nat → List ℚ × Nat
  | 0 => ([], read)
  | n + 1 =>
    let x := samples read
    let res := readLoop samples ((read + 1) % SampleBuffer.SIZE) n
    (x :: res.1, res.2)

/-- `SampleBuffer::read_block(out, count)` (src/fft_spectrum.cpp lines
48–62): if fewer than `count` samples are available, returns `false`,
leaving both the read position and the caller's output buffer untouched;
otherwise copies exactly `count` samples starting at the current read
position into the first `count` slots of `out`, stores the advanced read
position, and returns `true`. -/
def SampleBuffer.read_block (sb : SampleBuffer) (out : List ℚ)
    (count : Nat) : Bool × List ℚ × SampleBuffer :=
  if sb.available < count then (false, out, sb)
  else
    let res := readLoop sb.samples sb.read_pos count
    (true, res.1 ++ out.drop count, ⟨sb.samples, sb.write_pos, res.2⟩)

theorem readLoop_eq (samples : Nat → ℚ) (read n : Nat)
    (h : read < SampleBuffer.SIZE) :
    readLoop samples read n =
      ((List.range n).map
          (fun i => samples ((read + i) % SampleBuffer.SIZE)),
        (read + n) % SampleBuffer.SIZE) := by
  induction n generalizing read with
  | zero => simp [readLoop, Nat.mod_eq_of_lt h]
  | succ n ih =>
    have hlt : (read + 1) % SampleBuffer.SIZE < SampleBuffer.SIZE :=
      Nat.mod_lt _ (by norm_num [SampleBuffer.SIZE, FFT_SIZE])
    simp only [readLoop, ih ((read + 1) % SampleBuffer.SIZE) hlt]
    rw [Prod.mk.injEq]
    constructor
    · rw [List.range_succ_eq_map, List.map_cons, List.map_map]
      congr 1
      · congr 1
        rw [Nat.add_zero, Nat.mod_eq_of_lt h]
      · apply List.map_congr_left
        intro i _
        simp only [Function.comp]
        congr 1
        rw [Nat.mod_add_mod]
        congr 1
        omega
    · rw [Nat.mod_add_mod]
      congr 1
      omega

/-- C10: for every requested count, if the internal sample ring holds
fewer than `count` samples, `read_block` returns `false` and leaves both
the read position and the caller's output buffer unchanged; otherwise it
returns `true`, copies exactly `count` samples starting at the current
read position (sample `i` comes from index
`(read_pos + i) % SIZE`), and advances the read position by `count`
(mod `SIZE`), leaving the stored samples and the write position alone. -/
theorem c10_read_block (sb : SampleBuffer) (out : List ℚ) (count : Nat)
    (hrp : sb.read_pos < SampleBuffer.SIZE) :
    (sb.available < count → sb.read_block out count = (false, out, sb)) ∧
    (count ≤ sb.available →
      sb.read_block out count =
        (true,
          ((List.range count).map
            (fun i => sb.samples ((sb.read_pos + i) % SampleBuffer.SIZE)))
            ++ out.drop count,
          ⟨sb.samples, sb.write_pos,
            (sb.read_pos + count) % SampleBuffer.SIZE⟩)) := by
  constructor
  · intro h
    simp [SampleBuffer.read_block, h]
  · intro h
    have h2 : ¬ (sb.available < count) := by omega
    simp only [SampleBuffer.read_block, if_neg h2]
    rw [readLoop_eq sb.samples sb.read_pos count hrp]

/-- C10 witness buffer: 3 samples available (write 5, read 2). -/
def c10WitnessBuffer : SampleBuffer := ⟨fun i => (i : ℚ), 5, 2⟩

theorem c10_read_block_witness :
    c10WitnessBuffer.available < 4 ∧
    c10WitnessBuffer.read_block [0, 0, 0, 0] 4 =
      (false, [0, 0, 0, 0], c10WitnessBuffer) :=
  ⟨by decide,
    (c10_read_block c10WitnessBuffer [0, 0, 0, 0] 4 (by decide)).1 (by decide)⟩

/-- State of the `FFTSpectrum` analyzer around `process_samples`: the
internal sample ring, the `fft_input_` working buffer, and — abstracted
as a type parameter `σ` — everything downstream of the pull
(`fft_real_`, `fft_imag_`, the smoothed magnitudes, the per-bar peaks,
and the published snapshot with its `updated` flag). -/
structure FFTState (σ : Type) where
  sample_buffer : SampleBuffer
  fft_input : List ℚ
  pipeline : σ

/-- `FFTSpectrum::process_samples()` (src/fft_spectrum.cpp lines
252–271): runs only when `elapsed >= UPDATE_INTERVAL_MS` and
`sample_buffer_.available() >= FFT_SIZE`; it then calls
`read_block(fft_input_.data(), FFT_SIZE)` followed by `compute_fft()`
and `update_spectrum()`.  `elapsed` is the measured
`steady_clock` time since `last_update` in milliseconds; the
floating-point stages `compute_fft` (which multiplies `fft_input_` by
the Hann window in place, then runs the DFT) and `update_spectrum` are
abstracted as `upd`, which maps the pulled block and the downstream
state to the final `fft_input_` contents and new downstream state. -/
def process_samples {σ : Type} (upd : List ℚ → σ → List ℚ × σ)
    (elapsed : Nat) (st : FFTState σ) : FFTState σ :=
  if UPDATE_INTERVAL_MS ≤ elapsed ∧ FFT_SIZE ≤ st.sample_buffer.available
  then
    let res := st.sample_buffer.read_block st.fft_input FFT_SIZE
    let p := upd res.2.1 st.pipeline
    ⟨res.2.2, p.1, p.2⟩
  else st

/-- The window `process_samples` actually pulls: `FFT_SIZE` samples
starting at the current read position — the oldest unconsumed samples in
the ring. -/
def pulledWindow (sb : SampleBuffer) : List ℚ :=
  (List.range FFT_SIZE).map
    (fun i => sb.samples ((sb.read_pos + i) % SampleBuffer.SIZE))

/-- The window the spec's wording describes ("the freshest samples"):
the `FFT_SIZE` most recently written samples, ending at the write
position.  Defined from the spec's words, for comparison only. -/
def freshestWindow (sb : SampleBuffer) : List ℚ :=
  (List.range FFT_SIZE).map
    (fun i => sb.samples
      ((sb.write_pos + SampleBuffer.SIZE - FFT_SIZE + i) % SampleBuffer.SIZE))

/-- C7 counterexample buffer: 4096 samples pushed into a fresh ring
(write 4096, read 0), sample `i` carrying value `i`. -/
def c7CounterBuffer : SampleBuffer := ⟨fun i => (i : ℚ), 4096, 0⟩

theorem headD_map_range (f : Nat → ℚ) (n : Nat) (hn : 0 < n) :
    ((List.range n).map f).headD 0 = f 0 := by
  cases n with
  | zero => omega
  | succ m => rw [List.range_succ_eq_map, List.map_cons, List.headD_cons]

/-- C7 counterexample: on a tick that runs (interval elapsed, 4096 ≥
FFT_SIZE samples available), `process_samples` pulls the block starting
at the read position — its first sample is sample 0 — while the freshest
window of the ring starts at sample 2048; the pulled window is not the
freshest window, refuting the claim's "pulls ... the freshest samples". -/
theorem c7_counterexample :
    UPDATE_INTERVAL_MS ≤ 33 ∧ FFT_SIZE ≤ c7CounterBuffer.available ∧
    (process_samples (fun l p => (l, p)) 33
        ⟨c7CounterBuffer, List.replicate FFT_SIZE 0, ()⟩).fft_input =
      pulledWindow c7CounterBuffer ∧
    (pulledWindow c7CounterBuffer).headD 0 = 0 ∧
    (freshestWindow c7CounterBuffer).headD 0 = 2048 ∧
    pulledWindow c7CounterBuffer ≠ freshestWindow c7CounterBuffer := by
  have h4 : (pulledWindow c7CounterBuffer).headD 0 = 0 := by
    rw [pulledWindow, headD_map_range _ _ (by norm_num [FFT_SIZE])]
    norm_num [c7CounterBuffer]
  have h5 : (freshestWindow c7CounterBuffer).headD 0 = 2048 := by
    rw [freshestWindow, headD_map_range _ _ (by norm_num [FFT_SIZE])]
    norm_num [c7CounterBuffer, SampleBuffer.SIZE, FFT_SIZE]
  refine ⟨by decide, by decide, ?_, h4, h5, ?_⟩
  · simp only [process_samples, if_pos (⟨by decide, by decide⟩ :
      UPDATE_INTERVAL_MS ≤ 33 ∧ FFT_SIZE ≤ c7CounterBuffer.available)]
    simp only [SampleBuffer.read_block,
      if_neg (by decide : ¬ (c7CounterBuffer.available < FFT_SIZE))]
    rw [readLoop_eq c7CounterBuffer.samples c7CounterBuffer.read_pos
      FFT_SIZE (by decide)]
    rw [List.drop_eq_nil_of_le (by rw [List.length_replicate])]
    rw [List.append_nil]
    simp only [pulledWindow]
  · intro heq
    rw [heq, h5] at h4
    norm_num at h4

/-- C7 (amended): `process_samples` is a no-op — sample ring, fft input
and downstream pipeline state (hence the published snapshot) unchanged —
unless both the minimum interval has elapsed and at least one full
window of samples is available; when it does run, it pulls exactly one
window's worth (`FFT_SIZE` samples) of the oldest unconsumed samples,
starting at the current read position, advances the read position by
`FFT_SIZE`, and hands exactly that block to the windowing/DFT/spectrum
stage. -/
theorem c7_process_samples {σ : Type} (upd : List ℚ → σ → List ℚ × σ)
    (elapsed : Nat) (st : FFTState σ)
    (hrp : st.sample_buffer.read_pos < SampleBuffer.SIZE)
    (hlen : st.fft_input.length = FFT_SIZE) :
    (¬ (UPDATE_INTERVAL_MS ≤ elapsed ∧
        FFT_SIZE ≤ st.sample_buffer.available) →
      process_samples upd elapsed st = st) ∧
    ((UPDATE_INTERVAL_MS ≤ elapsed ∧
        FFT_SIZE ≤ st.sample_buffer.available) →
      (pulledWindow st.sample_buffer).length = FFT_SIZE ∧
      process_samples upd elapsed st =
        ⟨⟨st.sample_buffer.samples, st.sample_buffer.write_pos,
            (st.sample_buffer.read_pos + FFT_SIZE) % SampleBuffer.SIZE⟩,
          (upd (pulledWindow st.sample_buffer) st.pipeline).1,
          (upd (pulledWindow st.sample_buffer) st.pipeline).2⟩) := by
  constructor
  · intro h
    simp [process_samples, h]
  · intro h
    refine ⟨by simp [pulledWindow], ?_⟩
    simp only [process_samples, if_pos h]
    have h2 : ¬ (st.sample_buffer.available < FFT_SIZE) := by omega
    simp only [SampleBuffer.read_block, if_neg h2]
    rw [readLoop_eq st.sample_buffer.samples st.sample_buffer.read_pos
      FFT_SIZE hrp]
    rw [List.drop_eq_nil_of_le (by omega), List.append_nil]
    simp only [pulledWindow]

/-- C7 witness state: empty sample ring, zeroed fft input. -/
def c7WitnessState : FFTState Unit :=
  ⟨⟨fun _ => 0, 0, 0⟩, List.replicate FFT_SIZE 0, ()⟩

theorem c7_process_samples_witness :
    process_samples (fun l p => (l, p)) 0 c7WitnessState = c7WitnessState :=
  (c7_process_samples (fun l p => (l, p)) 0 c7WitnessState (by decide)
    (by simp only [c7WitnessState, List.length_replicate])).1 (by decide)

/-- `ATTACK_FACTOR = 0.60f` (src/fft_spectrum.cpp line 10).  The `float`
constants of the analyzer are modelled by their decimal values as exact
rationals. -/
def ATTACK_FACTOR : ℚ := 60 / 100

/-- `DECAY_FACTOR = 0.85f` (src/fft_spectrum.cpp line 11). -/
def DECAY_FACTOR : ℚ := 85 / 100

/-- `AUTOGAIN_DECAY = 0.995f` (src/fft_spectrum.hpp line 65). -/
def AUTOGAIN_DECAY : ℚ := 995 / 1000

/-- `MIN_PEAK = 0.001f` (src/fft_spectrum.hpp line 66). -/
def MIN_PEAK : ℚ := 1 / 1000

/-- The clamp `std::max(0.0f, std::min(1.0f, x))` applied in
`update_spectrum` (src/fft_spectrum.cpp lines 217 and 219). -/
def clamp01 (x : ℚ) : ℚ := max 0 (min 1 x)

/-- Per-bar autogain peak update (src/fft_spectrum.cpp lines 200–209):
the running peak is first multiplied by `AUTOGAIN_DECAY`, then raised to
the new raw magnitude if that exceeds it, then floored at `MIN_PEAK`. -/
def peakStep (peak raw : ℚ) : ℚ :=
  let p1 := peak * AUTOGAIN_DECAY
  let p2 := if raw > p1 then raw else p1
  if p2 < MIN_PEAK then MIN_PEAK else p2

/-- Per-bar normalized value (src/fft_spectrum.cpp lines 211–219):
`raw / peak` with the already-updated peak, sent through
`std::pow(·, 0.7f)` — a transcendental float operation, modelled by the
abstract function `γ` — then clamped to `[0, 1]` (the clamp appears
twice in the source). -/
def normalizedValue (γ : ℚ → ℚ) (peak raw : ℚ) : ℚ :=
  clamp01 (clamp01 (γ (raw / peakStep peak raw)))

/-- Per-bar smoothing (src/fft_spectrum.cpp lines 221–233): a rising
value attacks by `1 - ATTACK_FACTOR` of the gap; a falling value drops
by the larger of `1 - DECAY_FACTOR` of the gap and the gravity floor
`0.01 + current * 0.04`, clamped at 0. -/
def smoothStep (current normalized : ℚ) : ℚ :=
  let diff := normalized - current
  if diff > 0 then current + diff * (1 - ATTACK_FACTOR)
  else
    let gravity := 1 / 100 + current * (4 / 100)
    let fall := max (|diff| * (1 - DECAY_FACTOR)) gravity
    max 0 (current - fall)

/-- Published bar value after a run of analysis ticks: the smoothed value
starts at 0 (`smoothed_magnitudes_(NUM_BARS, 0.0f)`, src/fft_spectrum.cpp
line 68) and each tick applies `smoothStep` to the clamped normalized
value; the inputs list supplies an arbitrary (peak, raw) pair per tick,
which covers every evolution the peak can actually take. -/
def smoothRun (γ : ℚ → ℚ) (inputs : List (ℚ × ℚ)) : ℚ :=
  inputs.foldl (fun c pr => smoothStep c (normalizedValue γ pr.1 pr.2)) 0

theorem clamp01_nonneg (x : ℚ) : 0 ≤ clamp01 x := le_max_left 0 _

theorem clamp01_le_one (x : ℚ) : clamp01 x ≤ 1 :=
  max_le (by norm_num) (min_le_left 1 x)

theorem normalizedValue_mem (γ : ℚ → ℚ) (peak raw : ℚ) :
    0 ≤ normalizedValue γ peak raw ∧ normalizedValue γ peak raw ≤ 1 :=
  ⟨clamp01_nonneg _, clamp01_le_one _⟩

theorem smoothStep_mem (c n : ℚ) (hc0 : 0 ≤ c) (hc1 : c ≤ 1)
    (hn0 : 0 ≤ n) (hn1 : n ≤ 1) :
    0 ≤ smoothStep c n ∧ smoothStep c n ≤ 1 := by
  have hAF : (1 : ℚ) - ATTACK_FACTOR = 2 / 5 := by norm_num [ATTACK_FACTOR]
  simp only [smoothStep, hAF]
  split_ifs with h
  · constructor <;> linarith
  · constructor
    · exact le_max_left 0 _
    · apply max_le (by norm_num)
      have hg : (0 : ℚ) ≤ 1 / 100 + c * (4 / 100) := by linarith
      have hf := le_max_right (|n - c| * (1 - DECAY_FACTOR))
        (1 / 100 + c * (4 / 100))
      linarith

theorem smoothRun_fold_mem (γ : ℚ → ℚ) (inputs : List (ℚ × ℚ)) (c : ℚ)
    (hc0 : 0 ≤ c) (hc1 : c ≤ 1) :
    0 ≤ inputs.foldl
        (fun c pr => smoothStep c (normalizedValue γ pr.1 pr.2)) c ∧
      inputs.foldl
        (fun c pr => smoothStep c (normalizedValue γ pr.1 pr.2)) c ≤ 1 := by
  induction inputs generalizing c with
  | nil => exact ⟨hc0, hc1⟩
  | cons pr rest ih =>
    simp only [List.foldl_cons]
    have hn := normalizedValue_mem γ pr.1 pr.2
    have hs := smoothStep_mem c (normalizedValue γ pr.1 pr.2)
      hc0 hc1 hn.1 hn.2
    exact ih _ hs.1 hs.2

/-- C8: on every analysis tick and for every bar, a normalized value
above the previous smoothed value moves the smoothed value by the fixed
fraction `1 - ATTACK_FACTOR` of the gap toward it — strictly short of
reaching it, so a single-frame jump from 0 to a high value never lands
on the new value in one tick; a lower value makes it fall by the larger
of the fixed fraction `1 - DECAY_FACTOR` of the gap and the gravity
floor `0.01 + current * 0.04` that grows with the current height,
clamped at 0; and every published bar value — the smoothed value of a
tick run started at 0 and fed clamped normalized values — lies in
`[0, 1]`. -/
theorem c8_smoothing (γ : ℚ → ℚ) (current normalized peak raw : ℚ) :
    (current < normalized →
      smoothStep current normalized =
        current + (normalized - current) * (1 - ATTACK_FACTOR) ∧
      smoothStep current normalized < normalized) ∧
    (normalized < current →
      smoothStep current normalized =
        max 0 (current -
          max ((current - normalized) * (1 - DECAY_FACTOR))
            (1 / 100 + current * (4 / 100))) ∧
      0 ≤ smoothStep current normalized) ∧
    (0 ≤ current → current ≤ 1 → 0 ≤ normalized → normalized ≤ 1 →
      0 ≤ smoothStep current normalized ∧
        smoothStep current normalized ≤ 1) ∧
    (0 ≤ current → current ≤ 1 →
      0 ≤ smoothStep current (normalizedValue γ peak raw) ∧
        smoothStep current (normalizedValue γ peak raw) ≤ 1) ∧
    (∀ inputs : List (ℚ × ℚ),
      0 ≤ smoothRun γ inputs ∧ smoothRun γ inputs ≤ 1) := by
  refine ⟨?_, ?_, smoothStep_mem current normalized, ?_, ?_⟩
  · intro h
    have hpos : normalized - current > 0 := by linarith
    have heq : smoothStep current normalized =
        current + (normalized - current) * (1 - ATTACK_FACTOR) := by
      simp only [smoothStep, if_pos hpos]
    refine ⟨heq, ?_⟩
    rw [heq]
    have hAF : (1 : ℚ) - ATTACK_FACTOR = 2 / 5 := by norm_num [ATTACK_FACTOR]
    rw [hAF]
    linarith
  · intro h
    have hneg : ¬ (normalized - current > 0) := by linarith
    have habs : |normalized - current| = current - normalized := by
      rw [abs_of_nonpos (by linarith)]
      ring
    constructor
    · simp only [smoothStep, if_neg hneg, habs]
    · simp only [smoothStep, if_neg hneg]
      exact le_max_left 0 _
  · intro hc0 hc1
    have hn := normalizedValue_mem γ peak raw
    exact smoothStep_mem current _ hc0 hc1 hn.1 hn.2
  · intro inputs
    exact smoothRun_fold_mem γ inputs 0 (by norm_num) (by norm_num)

theorem c8_smoothing_witness :
    smoothStep 0 (1 / 2) = 0 + (1 / 2 - 0) * (1 - ATTACK_FACTOR) ∧
    smoothStep 0 (1 / 2) < 1 / 2 :=
  (c8_smoothing (fun x => x) 0 (1 / 2) 1 0).1 (by norm_num)

/-- C9: on every analysis tick and for every bar, the peak update equals
`max MIN_PEAK (max (peak * AUTOGAIN_DECAY) raw)`: the running peak is
multiplied by the fixed decay `AUTOGAIN_DECAY`, raised immediately to
the raw magnitude when that exceeds the decayed value, and floored at
`MIN_PEAK` — so apart from being overtaken by a new raw value (or
hitting the floor) it only decreases by the fixed decay; the normalized
bar value is the raw magnitude divided by this updated peak, passed
through the fixed exponent map (`pow(·, 0.7)`, exponent < 1, abstracted
as `γ`) and clamped, hence always in `[0, 1]`. -/
theorem c9_autogain (γ : ℚ → ℚ) (peak raw : ℚ) :
    (peakStep peak raw = max MIN_PEAK (max (peak * AUTOGAIN_DECAY) raw)) ∧
    (raw ≤ peak * AUTOGAIN_DECAY →
      peakStep peak raw = max MIN_PEAK (peak * AUTOGAIN_DECAY)) ∧
    (peak * AUTOGAIN_DECAY < raw →
      peakStep peak raw = max MIN_PEAK raw) ∧
    (MIN_PEAK ≤ peakStep peak raw) ∧
    (normalizedValue γ peak raw =
      clamp01 (clamp01 (γ (raw / peakStep peak raw)))) ∧
    (0 ≤ normalizedValue γ peak raw ∧ normalizedValue γ peak raw ≤ 1) := by
  have hmax : peakStep peak raw =
      max MIN_PEAK (max (peak * AUTOGAIN_DECAY) raw) := by
    simp only [peakStep]
    split_ifs with h1 h2 h3
    · rw [max_eq_right (le_of_lt h1), max_eq_left (le_of_lt h2)]
    · rw [max_eq_right (le_of_lt h1), max_eq_right (le_of_not_lt h2)]
    · rw [max_eq_left (le_of_not_lt h1), max_eq_left (le_of_lt h3)]
    · rw [max_eq_left (le_of_not_lt h1), max_eq_right (le_of_not_lt h3)]
  refine ⟨hmax, ?_, ?_, ?_, rfl, normalizedValue_mem γ peak raw⟩
  · intro h
    rw [hmax, max_eq_left h]
  · intro h
    rw [hmax, max_eq_right (le_of_lt h)]
  · rw [hmax]
    exact le_max_left _ _

theorem c9_autogain_witness :
    peakStep 1 0 = max MIN_PEAK (1 * AUTOGAIN_DECAY) :=
  (c9_autogain (fun x => x) 1 0).2.1 (by norm_num [AUTOGAIN_DECAY])

end Webradio
